import Mathlib

/-!
Shallow embedding of the configuration layer of the `sled` storage engine
(files under `src/config/`): `StorageParameters` serialization, `Config`
validation and persisted-configuration reconciliation (`read_config`,
`write_config`, `verify_config`), the builder (`get_path`, `normalize`,
`build`), and the sequential semantics of the global-error register.

Machine integers (`usize`, `u64`) are modelled as `Nat`, `i32` as `Int`;
byte sequences as `List Nat`; Rust `String`s as `List Char`; fallible
operations return `Except`.  File-system state relevant to the claims
(the `conf` and `conf.tmp` files) is a `Disk` record, and fallible I/O
primitives consult an explicit step-indexed fault oracle.
-/

/-- The error kinds of `sled::Error` that this layer produces
(`Unsupported`, corruption, I/O).  Message payloads are kept as
strings; `Error::corruption(None)` is the bare `Corruption`. -/
inductive SledError where
  | Unsupported (msg : String)
  | Corruption
  | Io (msg : String)
  deriving DecidableEq, Repr

deriving instance DecidableEq for Except

/-- `StorageParameters` from `src/config/storage_parameters.rs`: the only
persisted subset of the configuration.  `usize` fields are `Nat`. -/
structure StorageParameters where
  segment_size : Nat
  use_compression : Bool
  version : Nat × Nat
  deriving DecidableEq, Repr

/-- `Mode` from `src/config/mode.rs`. -/
inductive Mode where
  | LowSpace
  | HighThroughput
  deriving DecidableEq, Repr

/-- `ConfigBuilder<SEG>` from `src/config/builder.rs`.  The compile-time
segment type parameter `SEG` is represented by its only observable
datum, `SEG::SIZE`, stored as the field `segmentSize`.  Paths are
strings (`List Char`).  `tmpPath` is the temp path generated at builder
construction; its generation (time/pid based) is not modelled, only the
resulting field. -/
structure ConfigBuilder where
  cacheCapacity : Nat
  flushEveryMs : Option Nat
  segmentSize : Nat
  path : List Char
  createNew : Bool
  mode : Mode
  temporary : Bool
  useCompression : Bool
  compressionFactor : Int
  idgenPersistInterval : Nat
  snapshotAfterOps : Nat
  version : Nat × Nat
  tmpPath : List Char
  deriving DecidableEq, Repr

/-- `DEFAULT_PATH` from `src/config/mod.rs`. -/
def defaultPath : List Char := ("default.sled").toList

/- ## Small string/byte utilities mirroring the Rust std primitives
   used by `storage_parameters.rs` (str::split, BufRead::lines,
   String::from_utf8, FromStr for usize/bool). -/

/-- Split a list at every element satisfying `isSep`, keeping empty
chunks, as Rust `str::split` does for a one-character pattern.  The
result is always nonempty. -/
def splitOne (isSep : α → Bool) : List α → List (List α)
  | [] => [[]]
  | a :: rest =>
    if isSep a then [] :: splitOne isSep rest
    else
      match splitOne isSep rest with
      | [] => [[a]]
      | p :: ps => (a :: p) :: ps

/-- Rust `line.split(": ")` (two-character pattern, non-overlapping
leftmost matches). -/
def splitColonSpace : List Char → List (List Char)
  | [] => [[]]
  | [c] => [[c]]
  | c1 :: c2 :: rest =>
    if c1 = ':' ∧ c2 = ' ' then [] :: splitColonSpace rest
    else
      match splitColonSpace (c2 :: rest) with
      | [] => [[c1]]
      | p :: ps => (c1 :: p) :: ps

/-- Strip one trailing carriage-return byte, as `BufRead::lines` strips
a `\r` that preceded the terminating `\n`. -/
def stripCRBytes (l : List Nat) : List Nat :=
  if l.getLast? = some 13 then l.dropLast else l

/-- The per-line byte chunks produced by `BufRead::lines` over a byte
slice: chunks between `\n` (byte 10) separators; a terminator-less final
chunk is yielded as-is (and keeps a trailing `\r`); a final empty chunk
(input ended in `\n`) is not yielded. -/
def linesOfBytes (bytes : List Nat) : List (List Nat) :=
  let chunks := splitOne (fun b => b == 10) bytes
  if chunks.getLast? = some [] then chunks.dropLast.map stripCRBytes
  else chunks.dropLast.map stripCRBytes ++ chunks.getLast?.toList

/-- State of the UTF-8 validation automaton: characters decoded so
far, how many continuation bytes are still expected, the partially
assembled code point, the admissible range of the next continuation
byte (which encodes the overlong/surrogate/out-of-range restrictions on
the first continuation byte), and a sticky error flag. -/
structure Utf8State where
  acc : List Char
  pending : Nat
  cp : Nat
  nextLo : Nat
  nextHi : Nat
  bad : Bool
  deriving DecidableEq, Repr

/-- One step of the standard UTF-8 acceptance automaton (the byte-class
table of Rust `String::from_utf8`: lead bytes `C2–DF`, `E0`, `E1–EC`,
`ED`, `EE–EF`, `F0`, `F1–F3`, `F4`, with the restricted first
continuation ranges rejecting overlong forms, surrogates, and code
points above `0x10FFFF`). -/
def utf8Step (st : Utf8State) (b : Nat) : Utf8State :=
  if st.bad then st
  else if st.pending = 0 then
    if b < 0x80 then { st with acc := st.acc ++ [Char.ofNat b] }
    else if 0xC2 ≤ b ∧ b ≤ 0xDF then ⟨st.acc, 1, b - 0xC0, 0x80, 0xBF, false⟩
    else if b = 0xE0 then ⟨st.acc, 2, 0, 0xA0, 0xBF, false⟩
    else if 0xE1 ≤ b ∧ b ≤ 0xEC then ⟨st.acc, 2, b - 0xE0, 0x80, 0xBF, false⟩
    else if b = 0xED then ⟨st.acc, 2, 13, 0x80, 0x9F, false⟩
    else if 0xEE ≤ b ∧ b ≤ 0xEF then ⟨st.acc, 2, b - 0xE0, 0x80, 0xBF, false⟩
    else if b = 0xF0 then ⟨st.acc, 3, 0, 0x90, 0xBF, false⟩
    else if 0xF1 ≤ b ∧ b ≤ 0xF3 then ⟨st.acc, 3, b - 0xF0, 0x80, 0xBF, false⟩
    else if b = 0xF4 then ⟨st.acc, 3, 4, 0x80, 0x8F, false⟩
    else { st with bad := true }
  else if st.nextLo ≤ b ∧ b ≤ st.nextHi then
    let cp := st.cp * 0x40 + (b - 0x80)
    if st.pending = 1 then ⟨st.acc ++ [Char.ofNat cp], 0, 0, 0, 0, false⟩
    else ⟨st.acc, st.pending - 1, cp, 0x80, 0xBF, false⟩
  else { st with bad := true }

/-- UTF-8 decoding with the acceptance set of Rust
`String::from_utf8`: run the automaton; an input is valid exactly when
no byte faulted and no sequence is left incomplete. -/
def utf8Decode (l : List Nat) : Option (List Char) :=
  let st := l.foldl utf8Step ⟨[], 0, 0, 0, 0, false⟩
  if st.bad ∨ st.pending ≠ 0 then none else some st.acc

/-- The decimal digit characters, for formatting. -/
def digitChar (d : Nat) : Char :=
  match d with
  | 0 => '0' | 1 => '1' | 2 => '2' | 3 => '3' | 4 => '4'
  | 5 => '5' | 6 => '6' | 7 => '7' | 8 => '8' | _ => '9'

/-- Big-endian decimal digits of a positive number, with enough fuel;
structural recursion on the fuel keeps it kernel-reducible. -/
def natCharsAux : Nat → Nat → List Char
  | _, 0 => []
  | 0, _ + 1 => []
  | fuel + 1, n + 1 =>
    natCharsAux fuel ((n + 1) / 10) ++ [digitChar ((n + 1) % 10)]

/-- Decimal formatting of a `usize`/`u64` value, as Rust `Display`
renders it: most-significant digit first, `0` rendered as `"0"`. -/
def natChars (n : Nat) : List Char :=
  if n = 0 then ['0'] else natCharsAux n n

/-- Is `c` an ASCII decimal digit? -/
def isDigitChar (c : Char) : Bool := 48 ≤ c.toNat && c.toNat ≤ 57

/-- Digit-string parsing: nonempty, all digits. -/
def parseNatCore (cs : List Char) : Option Nat :=
  if cs ≠ [] ∧ cs.all isDigitChar then
    some (cs.foldl (fun a c => 10 * a + (c.toNat - 48)) 0)
  else none

/-- Rust `usize::from_str`: an optional leading plus sign, then one or
more decimal digits and nothing else.  (The `usize` overflow bound is
not modelled: the integers are unbounded `Nat`.) -/
def parseNat (cs : List Char) : Option Nat :=
  match cs with
  | '+' :: rest => parseNatCore rest
  | _ => parseNatCore cs

/-- Rust `bool::from_str`: exactly `true` or `false`. -/
def parseBool (cs : List Char) : Option Bool :=
  if cs = ("true").toList then some true
  else if cs = ("false").toList then some false
  else none

/-- Rust `raw.split('.')` used for the version field. -/
def splitDot : List Char → List (List Char) := splitOne (fun c => c == '.')

/-- The first two fragments of `line.split(": ")`: the key and the
value, or `none` when the line has no `": "` separator (in which case
`deserialize` reports corruption). -/
def kvOf (s : List Char) : Option (List Char × List Char) :=
  match splitColonSpace s with
  | k :: v :: _ => some (k, v)
  | _ => none

/-- Key lookup in an association list, first match wins; applied to the
reversed insertion sequence it yields exactly the `HashMap` contents of
the Rust code (later `insert`s shadow earlier ones). -/
def lookupKey (k : List Char) : List (List Char × List Char) → Option (List Char)
  | [] => none
  | (a, b) :: rest => if a = k then some b else lookupKey k rest

/-- The line loop of `StorageParameters::deserialize`: decode each line
as UTF-8 (failure: the pre-0.29 `Unsupported` error), split it as
`key: value` (failure: corruption), and collect the pairs in order. -/
def parseLinesBytes : List (List Nat) → Except SledError (List (List Char × List Char))
  | [] => .ok []
  | lb :: rest =>
    match utf8Decode lb with
    | none =>
      .error (.Unsupported
        ("failed to open database that may have been created using a sled version earlier than 0.29"))
    | some s =>
      match kvOf s with
      | none => .error .Corruption
      | some (k, v) =>
        match parseLinesBytes rest with
        | .error e => .error e
        | .ok ps => .ok ((k, v) :: ps)

/-- The `segment_size` configuration key. -/
def segKey : List Char := ("segment_size").toList

/-- The `use_compression` configuration key. -/
def ucKey : List Char := ("use_compression").toList

/-- The `version` configuration key. -/
def verKey : List Char := ("version").toList

/-- The required-key extraction of `StorageParameters::deserialize`,
after the line map has been built: `segment_size`, then
`use_compression`, then `version` (`major.minor`); any missing key or
unparsable value is a corruption error. -/
def fromPairs (pairs : List (List Char × List Char)) : Except SledError StorageParameters :=
  let m := pairs.reverse
  match lookupKey segKey m with
  | none => .error .Corruption
  | some rawSeg =>
    match parseNat rawSeg with
    | none => .error .Corruption
    | some seg =>
      match lookupKey ucKey m with
      | none => .error .Corruption
      | some rawUc =>
        match parseBool rawUc with
        | none => .error .Corruption
        | some uc =>
          match lookupKey verKey m with
          | none => .error .Corruption
          | some rawVer =>
            match splitDot rawVer with
            | [] => .error .Corruption
            | rawMajor :: rest =>
              match parseNat rawMajor with
              | none => .error .Corruption
              | some major =>
                match rest with
                | [] => .error .Corruption
                | rawMinor :: _ =>
                  match parseNat rawMinor with
                  | none => .error .Corruption
                  | some minor => .ok ⟨seg, uc, (major, minor)⟩

/-- `StorageParameters::deserialize`. -/
def StorageParameters.deserialize (bytes : List Nat) : Except SledError StorageParameters :=
  match parseLinesBytes (linesOfBytes bytes) with
  | .error e => .error e
  | .ok pairs => fromPairs pairs

/-- UTF-8 encoding of an ASCII line plus the terminating `\n` written
by `writeln!`. -/
def encLine (s : List Char) : List Nat := s.map Char.toNat ++ [10]

/-- `StorageParameters::serialize`: the three `writeln!` lines. -/
def StorageParameters.serialize (p : StorageParameters) : List Nat :=
  encLine (("segment_size: ").toList ++ natChars p.segment_size) ++
  encLine (("use_compression: ").toList ++
    (if p.use_compression then ("true").toList else ("false").toList)) ++
  encLine (("version: ").toList ++ natChars p.version.1 ++ '.' :: natChars p.version.2)

/-- The character-level counterpart of `parseLinesBytes`, for lines
already decoded from UTF-8. -/
def parsePairs : List (List Char) → Except SledError (List (List Char × List Char))
  | [] => .ok []
  | s :: rest =>
    match kvOf s with
    | none => .error .Corruption
    | some (k, v) =>
      match parsePairs rest with
      | .error e => .error e
      | .ok ps => .ok ((k, v) :: ps)

/-- `deserialize` restricted to already-decoded lines. -/
def deserializeLines (ls : List (List Char)) : Except SledError StorageParameters :=
  match parsePairs ls with
  | .error e => .error e
  | .ok pairs => fromPairs pairs

/-- The byte sequence whose `BufRead::lines` view is exactly `ls`:
each line UTF-8-encoded and newline-terminated. -/
def joinLines (ls : List (List Char)) : List Nat :=
  (ls.map encLine).flatten

/-- A line is plain when all its characters are ASCII and none is a
newline or carriage return; such lines survive the encode/split/decode
round trip unchanged. -/
def lineOkB (s : List Char) : Bool :=
  s.all fun c => decide (c.toNat < 128) && decide (¬ c.toNat = 10) && decide (¬ c.toNat = 13)

/- ## External primitives consumed as opaque services -/

/-- Modelled from the spec: the `crc32` primitive ("a 32-bit checksum"
computed over a byte sequence) lives outside `src/`; it is modelled as
an arbitrary executable 32-bit checksum function.  No claim depends on
the particular checksum values. -/
def crc32 (bytes : List Nat) : Nat :=
  bytes.foldl (fun acc b => (acc * 31 + b + 1) % 2 ^ 32) 0

/-- Modelled from the spec: `u32_to_arr` ("4 raw bytes encoding a
32-bit checksum") lives outside `src/`; modelled as little-endian. -/
def u32ToArr (u : Nat) : List Nat :=
  [u % 256, u / 256 % 256, u / 65536 % 256, u / 16777216 % 256]

/-- Modelled from the spec: `arr_to_u32`, inverse direction of
`u32ToArr`. -/
def arrToU32 (l : List Nat) : Nat :=
  match l with
  | [a, b, c, d] => a + 256 * b + 65536 * c + 16777216 * d
  | _ => 0

/-- Binary population count with enough fuel; structural recursion on
the fuel keeps it kernel-reducible. -/
def countOnesAux : Nat → Nat → Nat
  | _, 0 => 0
  | 0, _ + 1 => 0
  | fuel + 1, n + 1 => (n + 1) % 2 + countOnesAux fuel ((n + 1) / 2)

/-- `usize::count_ones` (binary population count). -/
def countOnes (n : Nat) : Nat := countOnesAux n n

/- ## Config: validation and the persisted-configuration protocol -/

/-- `Config::validate` from `src/config/config.rs`, the `supported!`
chain, in source order.  `noZstd` stands for the compile-time
`cfg!(feature = "no_zstd")` flag of the build. -/
def validate (noZstd : Bool) (c : ConfigBuilder) : Except SledError Unit :=
  if ¬ countOnes c.segmentSize = 1 then
    .error (.Unsupported ("segment_size should be a power of 2"))
  else if ¬ 256 ≤ c.segmentSize then
    .error (.Unsupported
      ("segment_size should be hundreds of kb at minimum, and we wont start if below 256"))
  else if ¬ c.segmentSize ≤ 2 ^ 24 then
    .error (.Unsupported ("segment_size should be <= 16mb"))
  else if c.useCompression ∧ noZstd then
    .error (.Unsupported
      ("the no_zstd feature is set, but Config.use_compression is also set to true"))
  else if ¬ 1 ≤ c.compressionFactor then
    .error (.Unsupported ("compression_factor must be >= 1"))
  else if ¬ c.compressionFactor ≤ 22 then
    .error (.Unsupported ("compression_factor must be <= 22"))
  else if ¬ 0 < c.idgenPersistInterval then
    .error (.Unsupported ("idgen_persist_interval must be above 0"))
  else .ok ()

/-- The slice of on-disk state the persisted-configuration protocol
touches: the `conf` file and the `conf.tmp` staging file, each either
absent or holding a byte sequence. -/
structure Disk where
  conf : Option (List Nat)
  confTmp : Option (List Nat)
  deriving DecidableEq, Repr

/-- The file-system operations `write_config` performs, in order. -/
inductive FsOp where
  | openTmp
  | writeBytes
  | writeCrc
  | fsyncTmp
  | renameTmpToConf
  | fsyncDir
  deriving DecidableEq, Repr

/-- A step-indexed fault oracle for the I/O primitives of
`write_config`: `oracle i = some e` makes the `i`-th operation fail
with the I/O error `e` before taking effect. -/
def FaultOracle := Nat → Option SledError

/-- The all-succeed oracle. -/
def cleanOracle : FaultOracle := fun _ => none

/-- Overwrite-in-place at a position, the semantics of `write_all` on a
file opened without truncation: bytes beyond the written range keep
their old values. -/
def overwriteAt (pos : Nat) (b c : List Nat) : List Nat :=
  c.take pos ++ b ++ c.drop (pos + b.length)

/-- Result of a modelled `write_config` run: outcome, final disk state,
and the trace of file-system operations that completed. -/
structure WcResult where
  res : Except SledError Unit
  disk : Disk
  trace : List FsOp
  deriving Repr

/-- `Config::serialize`: the `StorageParameters` drawn from the
configuration. -/
def serializeConfig (cfg : ConfigBuilder) : List Nat :=
  StorageParameters.serialize
    ⟨cfg.segmentSize, cfg.useCompression, cfg.version⟩

/-- `Config::write_config` from `src/config/config.rs`: serialize, crc,
open `conf.tmp` with `write(true).create(true)` (no truncation: a
pre-existing staging file keeps its bytes beyond what is written),
write the payload, write the 4 crc bytes, fsync the file, rename it
over `conf`, fsync the directory; each primitive may fail through the
oracle, aborting the sequence. -/
def writeConfig (cfg : ConfigBuilder) (d : Disk) (oracle : FaultOracle) : WcResult :=
  let bytes := serializeConfig cfg
  let crcArr := u32ToArr (crc32 bytes)
  match oracle 0 with
  | some e => ⟨.error e, d, []⟩
  | none =>
    let t0 := d.confTmp.getD []
    let d0 : Disk := ⟨d.conf, some t0⟩
    match oracle 1 with
    | some e => ⟨.error e, d0, [.openTmp]⟩
    | none =>
      let t1 := overwriteAt 0 bytes t0
      let d1 : Disk := ⟨d.conf, some t1⟩
      match oracle 2 with
      | some e => ⟨.error e, d1, [.openTmp, .writeBytes]⟩
      | none =>
        let t2 := overwriteAt bytes.length crcArr t1
        let d2 : Disk := ⟨d.conf, some t2⟩
        match oracle 3 with
        | some e => ⟨.error e, d2, [.openTmp, .writeBytes, .writeCrc]⟩
        | none =>
          match oracle 4 with
          | some e => ⟨.error e, d2, [.openTmp, .writeBytes, .writeCrc, .fsyncTmp]⟩
          | none =>
            let d4 : Disk := ⟨some t2, none⟩
            match oracle 5 with
            | some e =>
              ⟨.error e, d4,
                [.openTmp, .writeBytes, .writeCrc, .fsyncTmp, .renameTmpToConf]⟩
            | none =>
              ⟨.ok (), d4,
                [.openTmp, .writeBytes, .writeCrc, .fsyncTmp, .renameTmpToConf,
                  .fsyncDir]⟩

/-- `Config::read_config` from `src/config/config.rs`: a missing `conf`
file or one of at most 8 bytes is "no prior configuration"; otherwise
the trailing 4 bytes are the stored checksum, which is recomputed and
compared purely for a warning (a mismatch has no effect on the result),
and the preceding bytes are parsed. -/
def readConfig (conf : Option (List Nat)) : Except SledError (Option StorageParameters) :=
  match conf with
  | none => .ok none
  | some buf =>
    if buf.length ≤ 8 then .ok none
    else
      let content := buf.take (buf.length - 4)
      let crcExpected := arrToU32 (buf.drop (buf.length - 4))
      let crcActual := crc32 content
      let _warnOnly := crcExpected ≠ crcActual
      match StorageParameters.deserialize content with
      | .error e => .error e
      | .ok p => .ok (some p)

/-- `Config::verify_config` from `src/config/config.rs`.  `readFault`
injects an I/O failure into the underlying read (the pure disk model
itself cannot fail); the write path runs `writeConfig` under the given
oracle.  Returns the outcome together with the (possibly updated)
disk. -/
def verifyConfig (cfg : ConfigBuilder) (d : Disk) (readFault : Option SledError)
    (oracle : FaultOracle) : Except SledError Unit × Disk :=
  let readRes : Except SledError (Option StorageParameters) :=
    match readFault with
    | some e => .error e
    | none => readConfig d.conf
  match readRes with
  | .ok (some old) =>
    if cfg.useCompression then
      if ¬ old.use_compression then
        (.error (.Unsupported
          ("cannot change compression configuration across restarts. this database was created without compression enabled.")), d)
      else if ¬ cfg.segmentSize = old.segment_size then
        (.error (.Unsupported ("cannot change the io buffer size across restarts.")), d)
      else if ¬ cfg.version = old.version then
        (.error (.Unsupported
          ("The stored database must use a compatible sled version. See error log for more details.")), d)
      else (.ok (), d)
    else
      if old.use_compression then
        (.error (.Unsupported
          ("cannot change compression configuration across restarts. this database was created with compression enabled.")), d)
      else if ¬ cfg.segmentSize = old.segment_size then
        (.error (.Unsupported ("cannot change the io buffer size across restarts.")), d)
      else if ¬ cfg.version = old.version then
        (.error (.Unsupported
          ("The stored database must use a compatible sled version. See error log for more details.")), d)
      else (.ok (), d)
  | .ok none =>
    let w := writeConfig cfg d oracle
    (w.res, w.disk)
  | .error e => (.error e, d)

/- ## Builder operations -/

/-- `ConfigBuilder::get_path`. -/
def getPath (b : ConfigBuilder) : List Char :=
  if b.temporary ∧ b.path = defaultPath then b.tmpPath else b.path

/-- The spec's description of path resolution, for comparison with
`getPath`: "the explicit path if the user set one, otherwise a
per-process generated temporary path when `temporary` is set, otherwise
a fixed default relative path".  A path differing from the default is
the state-level meaning of "the user set one". -/
def getPathSpec (b : ConfigBuilder) : List Char :=
  if b.path ≠ defaultPath then b.path
  else if b.temporary then b.tmpPath
  else defaultPath

/-- `ConfigBuilder::normalize` for an unsigned integer quantity:
`value / segment_size * segment_size`. -/
def ConfigBuilder.normalize (b : ConfigBuilder) (value : Nat) : Nat :=
  value / b.segmentSize * b.segmentSize

/-- `ConfigBuilder::limit_cache_max_memory`.  `memLimit` stands for
`sys_limits::get_memory_limit()`, which lives outside `src/` —
modelled from the spec as the discoverable host memory ceiling, if
any. -/
def limitCacheMaxMemory (b : ConfigBuilder) (memLimit : Option Nat) : ConfigBuilder :=
  match memLimit with
  | some limit => if b.cacheCapacity > limit then { b with cacheCapacity := limit } else b
  | none => b

/-- `ConfigBuilder::build` / `From<ConfigBuilder> for Config`: clamp the
cache capacity, then wrap the builder unchanged (the `Config` is a
reference-counted wrapper whose observable fields are the builder's). -/
def buildConfig (b : ConfigBuilder) (memLimit : Option Nat) : ConfigBuilder :=
  limitCacheMaxMemory b memLimit

/- ## Global error register: sequential semantics of the CAS slot -/

/-- `Config::set_global_error`: a single compare-and-swap from null, so
an occupied slot is left untouched (first writer wins). -/
def setGlobalError (slot : Option SledError) (e : SledError) : Option SledError :=
  match slot with
  | none => some e
  | some old => some old

/-- `Config::reset_global_error`: unconditional swap to null (the old
value is handed to deferred reclamation, which does not affect the
slot's value). -/
def resetGlobalError (_slot : Option SledError) : Option SledError :=
  none

/-- `Config::global_error`: `Ok(())` on a null slot, otherwise a copy
of the installed error. -/
def globalError (slot : Option SledError) : Except SledError Unit :=
  match slot with
  | none => .ok ()
  | some e => .error e

/-- The full byte payload `write_config` writes: serialized text
followed immediately by the 4 checksum bytes. -/
def confPayload (cfg : ConfigBuilder) : List Nat :=
  serializeConfig cfg ++ u32ToArr (crc32 (serializeConfig cfg))

/-- A concrete configuration (the builder defaults with a small
segment size), used to instantiate hypotheses in witnesses. -/
def sampleConfig : ConfigBuilder where
  cacheCapacity := 1024 * 1024 * 1024
  flushEveryMs := some 500
  segmentSize := 256
  path := defaultPath
  createNew := false
  mode := .LowSpace
  temporary := false
  useCompression := false
  compressionFactor := 5
  idgenPersistInterval := 1000000
  snapshotAfterOps := 1000000
  version := (0, 34)
  tmpPath := ("/dev/shm/pagecache.tmp.1").toList

/- ## Lemmas about the split/parse primitives -/

theorem splitOne_ne_nil (p : α → Bool) (l : List α) : splitOne p l ≠ [] := by
  cases l with
  | nil => simp [splitOne]
  | cons a rest =>
    rw [splitOne]
    split
    · simp
    · split <;> simp

theorem splitOne_of_forall_not (p : α → Bool) (l : List α)
    (h : ∀ a ∈ l, p a = false) : splitOne p l = [l] := by
  induction l with
  | nil => rfl
  | cons a rest ih =>
    rw [splitOne]
    have ha : p a = false := h a (List.mem_cons_self a rest)
    rw [if_neg (by simp [ha])]
    rw [ih (fun x hx => h x (List.mem_cons_of_mem a hx))]

theorem splitOne_append_sep (p : α → Bool) (l : List α) (s : α) (rest : List α)
    (h : ∀ a ∈ l, p a = false) (hs : p s = true) :
    splitOne p (l ++ s :: rest) = l :: splitOne p rest := by
  induction l with
  | nil => simp [splitOne, hs]
  | cons a t ih =>
    have ha : p a = false := h a (List.mem_cons_self a t)
    rw [List.cons_append, splitOne, if_neg (by simp [ha]),
      ih (fun x hx => h x (List.mem_cons_of_mem a hx))]

theorem splitColonSpace_of_no_colon (l : List Char)
    (h : ∀ c ∈ l, c ≠ ':') : splitColonSpace l = [l] := by
  induction l with
  | nil => rfl
  | cons a rest ih =>
    have ha : a ≠ ':' := h a (List.mem_cons_self a rest)
    have hr := ih (fun x hx => h x (List.mem_cons_of_mem a hx))
    cases rest with
    | nil => rfl
    | cons b t =>
      rw [splitColonSpace, if_neg (by simp [ha]), hr]

theorem splitColonSpace_key (k v : List Char)
    (hk : ∀ c ∈ k, c ≠ ':') :
    splitColonSpace (k ++ ':' :: ' ' :: v) = [k] ++ splitColonSpace v := by
  induction k with
  | nil =>
    rw [List.nil_append, splitColonSpace, if_pos ⟨rfl, rfl⟩]
    rfl
  | cons a t ih =>
    have ha : a ≠ ':' := hk a (List.mem_cons_self a t)
    have hr := ih (fun x hx => hk x (List.mem_cons_of_mem a hx))
    cases t with
    | nil =>
      rw [List.cons_append, List.nil_append, splitColonSpace,
        if_neg (by simp [ha])]
      rw [List.nil_append] at hr
      rw [hr]
      rfl
    | cons b u =>
      rw [List.cons_append, List.cons_append, splitColonSpace,
        if_neg (by simp [ha])]
      rw [List.cons_append] at hr
      rw [hr]
      rfl

theorem splitColonSpace_kv (k v : List Char)
    (hk : ∀ c ∈ k, c ≠ ':') (hv : ∀ c ∈ v, c ≠ ':') :
    splitColonSpace (k ++ ':' :: ' ' :: v) = [k, v] := by
  rw [splitColonSpace_key k v hk, splitColonSpace_of_no_colon v hv]
  rfl

/- ## Decimal formatting and parsing round trip -/

theorem digitChar_toNat (d : Nat) (h : d < 10) : (digitChar d).toNat = 48 + d := by
  interval_cases d <;> rfl

theorem natCharsAux_eq (fuel n : Nat) (h : n ≤ fuel) :
    natCharsAux fuel n = ((Nat.digits 10 n).reverse).map digitChar := by
  induction fuel generalizing n with
  | zero =>
    have : n = 0 := by omega
    subst this
    simp [natCharsAux]
  | succ fuel ih =>
    match n with
    | 0 => simp [natCharsAux]
    | m + 1 =>
      rw [natCharsAux, ih ((m + 1) / 10) (by omega),
        Nat.digits_def' (by norm_num : (1 : Nat) < 10) (Nat.succ_pos m),
        List.reverse_cons, List.map_append]
      rfl

theorem natChars_eq (n : Nat) :
    natChars n = if n = 0 then ['0'] else ((Nat.digits 10 n).reverse).map digitChar := by
  rw [natChars]
  split
  · rfl
  · exact natCharsAux_eq n n (le_refl n)

theorem natChars_mem_digit (n : Nat) :
    ∀ c ∈ natChars n, 48 ≤ c.toNat ∧ c.toNat ≤ 57 := by
  intro c hc
  rw [natChars_eq] at hc
  split at hc
  · simp at hc
    subst hc
    decide
  · simp only [List.mem_map, List.mem_reverse] at hc
    obtain ⟨d, hd, rfl⟩ := hc
    have hlt : d < 10 := Nat.digits_lt_base (by norm_num) hd
    rw [digitChar_toNat d hlt]
    omega

theorem natChars_ne_nil (n : Nat) : natChars n ≠ [] := by
  rw [natChars_eq]
  split
  · simp
  · simp only [ne_eq, List.map_eq_nil_iff, List.reverse_eq_nil_iff]
    exact Nat.digits_ne_nil_iff_ne_zero.mpr (by assumption)

theorem foldl_digits (l : List Nat) (a : Nat) (h : ∀ d ∈ l, d < 10) :
    ((l.reverse.map digitChar).foldl (fun acc c => 10 * acc + (c.toNat - 48)) a) =
      a * 10 ^ l.length + Nat.ofDigits 10 l := by
  induction l generalizing a with
  | nil => simp
  | cons d t ih =>
    have hd : d < 10 := h d (List.mem_cons_self d t)
    have ht : ∀ x ∈ t, x < 10 := fun x hx => h x (List.mem_cons_of_mem d hx)
    rw [List.reverse_cons, List.map_append, List.foldl_append, ih a ht]
    simp only [List.map_cons, List.map_nil, List.foldl_cons, List.foldl_nil,
      Nat.ofDigits_cons, List.length_cons]
    rw [digitChar_toNat d hd]
    ring_nf
    omega

theorem parseNatCore_natChars (n : Nat) : parseNatCore (natChars n) = some n := by
  rw [parseNatCore, if_pos]
  · congr 1
    by_cases hn : n = 0
    · subst hn
      rfl
    · rw [natChars_eq, if_neg hn, foldl_digits _ 0 (fun d hd => Nat.digits_lt_base (by norm_num) hd)]
      rw [Nat.ofDigits_digits]
      omega
  · refine ⟨natChars_ne_nil n, ?_⟩
    rw [List.all_eq_true]
    intro c hc
    have := natChars_mem_digit n c hc
    simp only [isDigitChar, Bool.and_eq_true, decide_eq_true_eq]
    omega

theorem parseNat_natChars (n : Nat) : parseNat (natChars n) = some n := by
  have hne : natChars n ≠ [] := natChars_ne_nil n
  have hhead : ∀ c ∈ natChars n, c ≠ '+' := by
    intro c hc hco
    have := natChars_mem_digit n c hc
    subst hco
    simp at this
  rw [parseNat.eq_def]
  split
  · rename_i rest heq
    exfalso
    have : '+' ∈ natChars n := by rw [heq]; exact List.mem_cons_self _ _
    exact hhead '+' this rfl
  · exact parseNatCore_natChars n

/- ## ASCII encode/decode round trip -/

theorem utf8Step_ascii (st : Utf8State) (c : Char) (hp : st.pending = 0)
    (hb : st.bad = false) (hc : c.toNat < 128) :
    utf8Step st c.toNat = { st with acc := st.acc ++ [c] } := by
  rw [utf8Step, if_neg (by simp [hb]), if_pos hp,
    if_pos (show c.toNat < 128 from hc), Char.ofNat_toNat]

theorem foldl_utf8_ascii (s : List Char) (st : Utf8State) (hp : st.pending = 0)
    (hb : st.bad = false) (h : ∀ c ∈ s, c.toNat < 128) :
    (s.map Char.toNat).foldl utf8Step st = { st with acc := st.acc ++ s } := by
  induction s generalizing st with
  | nil => simp
  | cons c t ih =>
    rw [List.map_cons, List.foldl_cons,
      utf8Step_ascii st c hp hb (h c (List.mem_cons_self c t))]
    rw [ih _ (by simp [hp]) (by simp [hb]) (fun x hx => h x (List.mem_cons_of_mem c hx))]
    simp

theorem utf8Decode_ascii (s : List Char) (h : ∀ c ∈ s, c.toNat < 128) :
    utf8Decode (s.map Char.toNat) = some s := by
  simp only [utf8Decode]
  rw [foldl_utf8_ascii s _ rfl rfl h]
  simp

theorem stripCRBytes_of_no13 (l : List Nat) (h : ∀ b ∈ l, b ≠ 13) :
    stripCRBytes l = l := by
  rw [stripCRBytes, if_neg]
  intro hlast
  exact h 13 (List.mem_of_mem_getLast? hlast) rfl

theorem lineOkB_spec (s : List Char) (hs : lineOkB s = true) :
    ∀ c ∈ s, c.toNat < 128 ∧ c.toNat ≠ 10 ∧ c.toNat ≠ 13 := by
  intro c hc
  rw [lineOkB, List.all_eq_true] at hs
  have := hs c hc
  simp only [Bool.and_eq_true, decide_eq_true_eq] at this
  exact ⟨this.1.1, this.1.2, this.2⟩

theorem splitOne_joinLines (ls : List (List Char))
    (h : ∀ s ∈ ls, lineOkB s = true) :
    splitOne (fun b => b == 10) (joinLines ls) =
      ls.map (List.map Char.toNat) ++ [[]] := by
  induction ls with
  | nil => rfl
  | cons s t ih =>
    have hs := lineOkB_spec s (h s (List.mem_cons_self s t))
    have ht := ih (fun x hx => h x (List.mem_cons_of_mem s hx))
    rw [joinLines] at ht
    rw [joinLines, List.map_cons, List.flatten_cons, encLine, List.append_assoc,
      List.singleton_append, splitOne_append_sep]
    · rw [ht]
      rfl
    · intro b hb
      simp only [List.mem_map] at hb
      obtain ⟨c, hc, rfl⟩ := hb
      have := hs c hc
      simp only [beq_eq_false_iff_ne, ne_eq]
      omega
    · rfl

theorem linesOfBytes_joinLines (ls : List (List Char))
    (h : ∀ s ∈ ls, lineOkB s = true) :
    linesOfBytes (joinLines ls) = ls.map (List.map Char.toNat) := by
  rw [linesOfBytes, splitOne_joinLines ls h]
  rw [if_pos (List.getLast?_concat _)]
  rw [List.dropLast_concat]
  rw [List.map_map]
  apply List.map_congr_left
  intro s hs
  have hspec := lineOkB_spec s (h s hs)
  apply stripCRBytes_of_no13
  intro b hb
  simp only [Function.comp_apply, List.mem_map] at hb
  obtain ⟨c, hc, rfl⟩ := hb
  exact (hspec c hc).2.2

/- ## Bridge: byte-level deserialize over plain joined lines -/

theorem lineOkB_of (s : List Char)
    (h : ∀ c ∈ s, c.toNat < 128 ∧ c.toNat ≠ 10 ∧ c.toNat ≠ 13) :
    lineOkB s = true := by
  rw [lineOkB, List.all_eq_true]
  intro c hc
  have := h c hc
  simp only [Bool.and_eq_true, decide_eq_true_eq]
  exact ⟨⟨this.1, this.2.1⟩, this.2.2⟩

theorem parseLinesBytes_map_enc (ls : List (List Char))
    (h : ∀ s ∈ ls, lineOkB s = true) :
    parseLinesBytes (ls.map (List.map Char.toNat)) = parsePairs ls := by
  induction ls with
  | nil => rfl
  | cons s t ih =>
    have hs := lineOkB_spec s (h s (List.mem_cons_self s t))
    have ht := ih (fun x hx => h x (List.mem_cons_of_mem s hx))
    rw [List.map_cons, parseLinesBytes,
      utf8Decode_ascii s (fun c hc => (hs c hc).1), parsePairs, ht]

theorem deserialize_joinLines (ls : List (List Char))
    (h : ∀ s ∈ ls, lineOkB s = true) :
    StorageParameters.deserialize (joinLines ls) = deserializeLines ls := by
  rw [StorageParameters.deserialize, linesOfBytes_joinLines ls h,
    parseLinesBytes_map_enc ls h, deserializeLines]

theorem lookupKey_cons_ne (a k : List Char) (b : List Char)
    (rest : List (List Char × List Char)) (h : a ≠ k) :
    lookupKey k ((a, b) :: rest) = lookupKey k rest := by
  rw [lookupKey, if_neg h]

theorem lookupKey_cons_eq (k : List Char) (b : List Char)
    (rest : List (List Char × List Char)) :
    lookupKey k ((k, b) :: rest) = some b := by
  rw [lookupKey, if_pos rfl]

theorem natChars_ne_colon (n : Nat) : ∀ c ∈ natChars n, c ≠ ':' := by
  intro c hc hco
  have := natChars_mem_digit n c hc
  subst hco
  simp at this

theorem natChars_ne_dot (n : Nat) : ∀ c ∈ natChars n, (c == '.') = false := by
  intro c hc
  have := natChars_mem_digit n c hc
  simp only [beq_eq_false_iff_ne, ne_eq]
  intro hco
  subst hco
  simp at this

theorem kvOf_key_value (k v : List Char)
    (hk : ∀ c ∈ k, c ≠ ':') (hv : ∀ c ∈ v, c ≠ ':') :
    kvOf (k ++ ':' :: ' ' :: v) = some (k, v) := by
  rw [kvOf, splitColonSpace_kv k v hk hv]

theorem lineOkB_natChars (n : Nat) : lineOkB (natChars n) = true := by
  apply lineOkB_of
  intro c hc
  have := natChars_mem_digit n c hc
  omega

theorem lineOkB_append (x y : List Char) :
    lineOkB (x ++ y) = (lineOkB x && lineOkB y) := by
  simp [lineOkB, List.all_append]

theorem lineOkB_cons (c : Char) (s : List Char) :
    lineOkB (c :: s) =
      ((decide (c.toNat < 128) && decide (¬ c.toNat = 10) && decide (¬ c.toNat = 13)) &&
        lineOkB s) := by
  simp [lineOkB]

theorem splitDot_version (a c : Nat) :
    splitDot (natChars a ++ '.' :: natChars c) = [natChars a, natChars c] := by
  rw [splitDot, splitOne_append_sep _ _ _ _ (natChars_ne_dot a) (by decide),
    splitOne_of_forall_not _ _ (natChars_ne_dot c)]

/-- C1: for every `StorageParameters` value (any segment size, any
compression flag, any version pair), deserializing the byte sequence
produced by serializing it yields it back:
`deserialize (serialize p) = Ok p`. -/
theorem c1_storage_parameters_roundtrip (p : StorageParameters) :
    StorageParameters.deserialize p.serialize = .ok p := by
  obtain ⟨n, b, a, c⟩ := p
  have hL1 : StorageParameters.serialize ⟨n, b, (a, c)⟩ =
      joinLines [segKey ++ ':' :: ' ' :: natChars n,
        ucKey ++ ':' :: ' ' :: (if b then ("true").toList else ("false").toList),
        verKey ++ ':' :: ' ' :: (natChars a ++ '.' :: natChars c)] := by
    simp only [StorageParameters.serialize, joinLines, List.map_cons, List.map_nil,
      List.flatten_cons, List.flatten_nil, List.append_nil, List.append_assoc]
    rfl
  have hok : ∀ s ∈ [segKey ++ ':' :: ' ' :: natChars n,
      ucKey ++ ':' :: ' ' :: (if b then ("true").toList else ("false").toList),
      verKey ++ ':' :: ' ' :: (natChars a ++ '.' :: natChars c)], lineOkB s = true := by
    intro s hs
    simp only [List.mem_cons, List.not_mem_nil, or_false] at hs
    rcases hs with rfl | rfl | rfl
    · rw [lineOkB_append, lineOkB_cons, lineOkB_cons, lineOkB_natChars]
      decide
    · rw [lineOkB_append, lineOkB_cons, lineOkB_cons]
      cases b <;> decide
    · rw [lineOkB_append, lineOkB_cons, lineOkB_cons, lineOkB_append,
        lineOkB_cons, lineOkB_natChars, lineOkB_natChars]
      decide
  rw [hL1, deserialize_joinLines _ hok]
  have hkv1 : kvOf (segKey ++ ':' :: ' ' :: natChars n) = some (segKey, natChars n) :=
    kvOf_key_value _ _ (by decide) (natChars_ne_colon n)
  have hkv2 : kvOf (ucKey ++ ':' :: ' ' ::
      (if b then ("true").toList else ("false").toList)) =
      some (ucKey, if b then ("true").toList else ("false").toList) :=
    kvOf_key_value _ _ (by decide) (by cases b <;> decide)
  have hkv3 : kvOf (verKey ++ ':' :: ' ' :: (natChars a ++ '.' :: natChars c)) =
      some (verKey, natChars a ++ '.' :: natChars c) := by
    refine kvOf_key_value _ _ (by decide) ?_
    intro x hx
    rcases List.mem_append.mp hx with h1 | h1
    · exact natChars_ne_colon a x h1
    · rcases List.mem_cons.mp h1 with rfl | h2
      · decide
      · exact natChars_ne_colon c x h2
  have hpp : parsePairs [segKey ++ ':' :: ' ' :: natChars n,
      ucKey ++ ':' :: ' ' :: (if b then ("true").toList else ("false").toList),
      verKey ++ ':' :: ' ' :: (natChars a ++ '.' :: natChars c)] =
      .ok [(segKey, natChars n),
        (ucKey, if b then ("true").toList else ("false").toList),
        (verKey, natChars a ++ '.' :: natChars c)] := by
    rw [parsePairs, hkv1, parsePairs, hkv2, parsePairs, hkv3, parsePairs]
  rw [deserializeLines, hpp]
  have hlk1 : lookupKey segKey
      [(verKey, natChars a ++ '.' :: natChars c),
       (ucKey, if b then ("true").toList else ("false").toList),
       (segKey, natChars n)] = some (natChars n) := by
    rw [lookupKey_cons_ne _ _ _ _ (by decide), lookupKey_cons_ne _ _ _ _ (by decide),
      lookupKey_cons_eq]
  have hlk2 : lookupKey ucKey
      [(verKey, natChars a ++ '.' :: natChars c),
       (ucKey, if b then ("true").toList else ("false").toList),
       (segKey, natChars n)] = some (if b then ("true").toList else ("false").toList) := by
    rw [lookupKey_cons_ne _ _ _ _ (by decide), lookupKey_cons_eq]
  have hlk3 : lookupKey verKey
      [(verKey, natChars a ++ '.' :: natChars c),
       (ucKey, if b then ("true").toList else ("false").toList),
       (segKey, natChars n)] = some (natChars a ++ '.' :: natChars c) := by
    rw [lookupKey_cons_eq]
  have hrev : ([(segKey, natChars n),
      (ucKey, if b then ("true").toList else ("false").toList),
      (verKey, natChars a ++ '.' :: natChars c)]).reverse =
      [(verKey, natChars a ++ '.' :: natChars c),
       (ucKey, if b then ("true").toList else ("false").toList),
       (segKey, natChars n)] := by simp
  simp only [fromPairs, hrev, hlk1, parseNat_natChars, hlk2, hlk3, splitDot_version]
  cases b
  · have hpb : parseBool ['f', 'a', 'l', 's', 'e'] = some false := by decide
    simp [hpb]
  · have hpb : parseBool ['t', 'r', 'u', 'e'] = some true := by decide
    simp [hpb]

/- ## Population count and powers of two -/

theorem countOnesAux_eq (fuel n : Nat) (h : n ≤ fuel) :
    countOnesAux fuel n = countOnes n := by
  induction fuel using Nat.strong_induction_on generalizing n with
  | _ fuel ih =>
    match fuel, n with
    | fuel, 0 => cases fuel <;> rfl
    | 0, m + 1 => omega
    | fuel + 1, m + 1 =>
      have h1 : countOnesAux (fuel + 1) (m + 1) =
          (m + 1) % 2 + countOnes ((m + 1) / 2) := by
        rw [countOnesAux, ih fuel (by omega) ((m + 1) / 2) (by omega)]
      have h2 : countOnes (m + 1) = (m + 1) % 2 + countOnes ((m + 1) / 2) := by
        rw [countOnes, countOnesAux, ih m (by omega) ((m + 1) / 2) (by omega)]
      rw [h1, h2]

theorem countOnes_rec (n : Nat) (h : n ≠ 0) :
    countOnes n = n % 2 + countOnes (n / 2) := by
  match n with
  | m + 1 =>
    rw [countOnes, countOnesAux, countOnesAux_eq m ((m + 1) / 2) (by omega)]

theorem countOnes_eq_zero (n : Nat) : countOnes n = 0 ↔ n = 0 := by
  induction n using Nat.strong_induction_on with
  | _ n ih =>
    by_cases h : n = 0
    · subst h
      simp [countOnes, countOnesAux]
    · rw [countOnes_rec n h]
      constructor
      · intro he
        have h2 : countOnes (n / 2) = 0 := by omega
        have h3 : n / 2 = 0 := (ih (n / 2) (by omega)).mp h2
        omega
      · intro h0
        exact absurd h0 h

theorem countOnes_eq_one (n : Nat) : countOnes n = 1 ↔ ∃ k, n = 2 ^ k := by
  induction n using Nat.strong_induction_on with
  | _ n ih =>
    by_cases h : n = 0
    · subst h
      constructor
      · intro he
        simp [countOnes, countOnesAux] at he
      · rintro ⟨k, hk⟩
        exact absurd hk.symm (Nat.pos_iff_ne_zero.mp (Nat.pos_pow_of_pos k (by norm_num))).elim
    · rw [countOnes_rec n h]
      by_cases ho : n % 2 = 1
      · rw [ho]
        constructor
        · intro he
          have h2 : countOnes (n / 2) = 0 := by omega
          have h3 : n / 2 = 0 := (countOnes_eq_zero (n / 2)).mp h2
          have : n = 1 := by omega
          exact ⟨0, by omega⟩
        · rintro ⟨k, rfl⟩
          match k with
          | 0 => simp [countOnes, countOnesAux]
          | j + 1 =>
            exfalso
            have : 2 ^ (j + 1) % 2 = 0 := by
              rw [Nat.pow_succ, Nat.mul_mod_left]
            omega
      · have he : n % 2 = 0 := by omega
        rw [he]
        have hd : n = 2 * (n / 2) := by omega
        constructor
        · intro h1
          have h2 : countOnes (n / 2) = 1 := by omega
          obtain ⟨k, hk⟩ := (ih (n / 2) (by omega)).mp h2
          exact ⟨k + 1, by rw [Nat.pow_succ]; omega⟩
        · rintro ⟨k, rfl⟩
          match k with
          | 0 => omega
          | j + 1 =>
            have hdiv : 2 ^ (j + 1) / 2 = 2 ^ j := by
              rw [Nat.pow_succ, Nat.mul_div_cancel]
              norm_num
            rw [hdiv] at hd ⊢
            have : countOnes (2 ^ j) = 1 := (ih (2 ^ j) (by
              have := Nat.pos_pow_of_pos j (show 0 < 2 by norm_num)
              omega)).mpr ⟨j, rfl⟩
            omega

/-- C2: `Config::validate` (run by `open` before any file-system
action) returns `Ok` exactly when the segment size is a power of two
(in particular nonzero) in `[256, 2^24]`, compression — if requested —
is supported by the build, the compression factor is in `[1, 22]`, and
the idgen persistence interval is positive; every violation yields an
`Unsupported` error. -/
theorem validate_ok_iff (noZstd : Bool) (c : ConfigBuilder) :
    validate noZstd c = .ok () ↔
      (countOnes c.segmentSize = 1 ∧ 256 ≤ c.segmentSize ∧ c.segmentSize ≤ 2 ^ 24 ∧
        ¬(c.useCompression = true ∧ noZstd = true) ∧
        1 ≤ c.compressionFactor ∧ c.compressionFactor ≤ 22 ∧
        0 < c.idgenPersistInterval) := by
  rw [validate]
  split_ifs <;> simp_all

theorem c2_validate_iff (noZstd : Bool) (c : ConfigBuilder) :
    (validate noZstd c = .ok () ↔
      ((∃ k, c.segmentSize = 2 ^ k) ∧ 256 ≤ c.segmentSize ∧ c.segmentSize ≤ 2 ^ 24 ∧
        (c.useCompression = true → noZstd = false) ∧
        1 ≤ c.compressionFactor ∧ c.compressionFactor ≤ 22 ∧
        0 < c.idgenPersistInterval)) ∧
    (validate noZstd c = .ok () ∨ ∃ m, validate noZstd c = .error (.Unsupported m)) := by
  constructor
  · rw [validate_ok_iff]
    have hpow := countOnes_eq_one c.segmentSize
    have hbool : ¬(c.useCompression = true ∧ noZstd = true) ↔
        (c.useCompression = true → noZstd = false) := by
      constructor
      · intro hn hu
        by_contra hz
        exact hn ⟨hu, Bool.not_eq_false noZstd ▸ hz⟩
      · rintro hi ⟨hu, hz⟩
        rw [hi hu] at hz
        simp at hz
    rw [hpow, hbool]
  · rw [validate]
    split_ifs
    all_goals first
      | exact Or.inl rfl
      | exact Or.inr ⟨_, rfl⟩

/-- C6: the global-error register is the state machine
`Empty -(set)-> Occupied -(reset)-> Empty`: `set` installs only into an
empty slot and leaves an occupied slot unchanged (first writer wins),
`reset` unconditionally empties the slot, `global_error` returns `Ok`
exactly on the empty slot and otherwise a copy of the installed error,
and no `set` can move an occupied slot to a different occupied value. -/
theorem c6_global_error_register :
    (∀ e, setGlobalError none e = some e) ∧
    (∀ e₀ e, setGlobalError (some e₀) e = some e₀) ∧
    (∀ s, resetGlobalError s = none) ∧
    (globalError none = .ok ()) ∧
    (∀ e, globalError (some e) = .error e) ∧
    (∀ s e₀ e₁ e, s = some e₀ → setGlobalError s e = some e₁ → e₁ = e₀) := by
  refine ⟨fun e => rfl, fun e₀ e => rfl, fun s => rfl, rfl, fun e => rfl, ?_⟩
  rintro s e₀ e₁ e rfl h
  rw [setGlobalError] at h
  exact (Option.some_inj.mp h).symm

theorem c6_global_error_register_witness :
    SledError.Corruption = SledError.Corruption :=
  c6_global_error_register.2.2.2.2.2 (some .Corruption) .Corruption .Corruption
    (.Io ("buffer write failed")) rfl rfl

/-- C7: `get_path` returns the explicitly configured path whenever one
differing from the default is set; otherwise, with the temporary flag
set, the generated temporary path fixed at builder construction;
otherwise the fixed default relative path `default.sled`.  This agrees
with the spec-side resolution rule `getPathSpec` on every builder
state. -/
theorem c7_get_path (b : ConfigBuilder) :
    getPath b = getPathSpec b ∧
    (b.path ≠ defaultPath → getPath b = b.path) ∧
    (b.path = defaultPath → b.temporary = true → getPath b = b.tmpPath) ∧
    (b.path = defaultPath → b.temporary = false → getPath b = defaultPath) := by
  by_cases hp : b.path = defaultPath <;> by_cases ht : b.temporary = true <;>
    simp [getPath, getPathSpec, hp, ht]

theorem c7_get_path_witness : getPath sampleConfig = defaultPath :=
  (c7_get_path sampleConfig).2.2.2 rfl rfl

/-- C8: `normalize` rounds down to the nearest multiple of the builder
segment size: it equals `v / S * S`, is divisible by `S`, is at most
`v`, is idempotent, and dominates every multiple of `S` below `v`. -/
theorem c8_normalize (b : ConfigBuilder) (v : Nat) (h : 0 < b.segmentSize) :
    b.normalize v = v / b.segmentSize * b.segmentSize ∧
    b.segmentSize ∣ b.normalize v ∧
    b.normalize v ≤ v ∧
    b.normalize (b.normalize v) = b.normalize v ∧
    (∀ m, b.segmentSize ∣ m → m ≤ v → m ≤ b.normalize v) := by
  refine ⟨rfl, dvd_mul_left _ _, Nat.div_mul_le_self v _, ?_, ?_⟩
  · rw [ConfigBuilder.normalize, ConfigBuilder.normalize, Nat.mul_div_cancel _ h]
  · rintro m ⟨k, rfl⟩ hm
    rw [ConfigBuilder.normalize]
    have hk : k ≤ v / b.segmentSize :=
      (Nat.le_div_iff_mul_le h).mpr (by rw [Nat.mul_comm]; exact hm)
    calc b.segmentSize * k = k * b.segmentSize := Nat.mul_comm _ _
    _ ≤ v / b.segmentSize * b.segmentSize := Nat.mul_le_mul_right _ hk

theorem c8_normalize_witness : sampleConfig.normalize 1000 ≤ 1000 :=
  (c8_normalize sampleConfig 1000 (by decide)).2.2.1

/-- C9: `build` is a total function into a configuration; it clamps the
cache capacity to the discoverable host memory ceiling exactly when
that ceiling is smaller than the configured capacity, and carries every
other field into the configuration unchanged. -/
theorem c9_build_clamp (b : ConfigBuilder) (memLimit : Option Nat) :
    (buildConfig b memLimit).cacheCapacity =
      (match memLimit with
       | some limit => if limit < b.cacheCapacity then limit else b.cacheCapacity
       | none => b.cacheCapacity) ∧
    (buildConfig b memLimit).flushEveryMs = b.flushEveryMs ∧
    (buildConfig b memLimit).segmentSize = b.segmentSize ∧
    (buildConfig b memLimit).path = b.path ∧
    (buildConfig b memLimit).createNew = b.createNew ∧
    (buildConfig b memLimit).mode = b.mode ∧
    (buildConfig b memLimit).temporary = b.temporary ∧
    (buildConfig b memLimit).useCompression = b.useCompression ∧
    (buildConfig b memLimit).compressionFactor = b.compressionFactor ∧
    (buildConfig b memLimit).idgenPersistInterval = b.idgenPersistInterval ∧
    (buildConfig b memLimit).snapshotAfterOps = b.snapshotAfterOps ∧
    (buildConfig b memLimit).version = b.version ∧
    (buildConfig b memLimit).tmpPath = b.tmpPath := by
  cases memLimit with
  | none => exact ⟨rfl, rfl, rfl, rfl, rfl, rfl, rfl, rfl, rfl, rfl, rfl, rfl, rfl⟩
  | some limit =>
    rw [show buildConfig b (some limit) =
        (if b.cacheCapacity > limit then { b with cacheCapacity := limit } else b) from rfl]
    by_cases hl : b.cacheCapacity > limit
    · rw [if_pos hl]
      refine ⟨?_, rfl, rfl, rfl, rfl, rfl, rfl, rfl, rfl, rfl, rfl, rfl, rfl⟩
      simp only []
      rw [if_pos (by omega)]
    · rw [if_neg hl]
      refine ⟨?_, rfl, rfl, rfl, rfl, rfl, rfl, rfl, rfl, rfl, rfl, rfl, rfl⟩
      simp only []
      rw [if_neg (by omega)]

theorem c2_validate_witness : validate false sampleConfig = .ok () :=
  (c2_validate_iff false sampleConfig).1.mpr
    ⟨⟨8, rfl⟩, by decide, by decide, fun _ => rfl, by decide, by decide, by decide⟩

/- ## C4: read_config -/

theorem readConfig_long (buf : List Nat) (h : 8 < buf.length) :
    readConfig (some buf) =
      match StorageParameters.deserialize (buf.take (buf.length - 4)) with
      | .error e => .error e
      | .ok p => .ok (some p) := by
  rw [readConfig, if_neg (by omega)]

/-- C4: `read_config` yields `Ok(None)` for a missing `conf` file and
for one of at most 8 bytes (not an error); for a longer file the result
is exactly the parse of the bytes before the trailing 4 checksum bytes:
the recomputed checksum is compared only for a warning, so the trailing
4 bytes never influence the result. -/
theorem c4_read_config_leniency :
    (readConfig none = .ok none) ∧
    (∀ buf : List Nat, buf.length ≤ 8 → readConfig (some buf) = .ok none) ∧
    (∀ buf : List Nat, 8 < buf.length →
      readConfig (some buf) =
        match StorageParameters.deserialize (buf.take (buf.length - 4)) with
        | .error e => .error e
        | .ok p => .ok (some p)) ∧
    (∀ content c₁ c₂ : List Nat, 5 ≤ content.length → c₁.length = 4 → c₂.length = 4 →
      readConfig (some (content ++ c₁)) = readConfig (some (content ++ c₂))) := by
  refine ⟨rfl, ?_, readConfig_long, ?_⟩
  · intro buf h
    rw [readConfig, if_pos h]
  · intro content c₁ c₂ hc h1 h2
    have ht : ∀ c : List Nat, c.length = 4 →
        (content ++ c).take ((content ++ c).length - 4) = content := by
      intro c hcl
      rw [List.length_append, hcl, Nat.add_sub_cancel, List.take_left]
    rw [readConfig_long _ (by rw [List.length_append, h1]; omega),
      readConfig_long _ (by rw [List.length_append, h2]; omega),
      ht c₁ h1, ht c₂ h2]

theorem c4_read_config_leniency_witness :
    readConfig (some [115, 58, 32, 120]) = .ok none :=
  c4_read_config_leniency.2.1 [115, 58, 32, 120] (by decide)

/- ## C3: verify_config -/

theorem u32ToArr_length (u : Nat) : (u32ToArr u).length = 4 := rfl

theorem overwrite_payload (bytes crcArr t0 : List Nat) :
    overwriteAt bytes.length crcArr (overwriteAt 0 bytes t0) =
      (bytes ++ crcArr) ++ t0.drop (bytes.length + crcArr.length) := by
  rw [overwriteAt, overwriteAt]
  simp only [List.take_zero, List.nil_append, Nat.zero_add]
  rw [List.take_left, List.drop_append, List.drop_drop]

theorem writeConfig_clean (cfg : ConfigBuilder) (d : Disk) :
    writeConfig cfg d cleanOracle =
      ⟨.ok (),
        ⟨some (confPayload cfg ++ (d.confTmp.getD []).drop (confPayload cfg).length), none⟩,
        [.openTmp, .writeBytes, .writeCrc, .fsyncTmp, .renameTmpToConf, .fsyncDir]⟩ := by
  rw [writeConfig]
  simp only [cleanOracle]
  rw [overwrite_payload]
  rw [confPayload, List.length_append, u32ToArr_length]

/-- C3: `verify_config` — when reading the persisted record succeeds
with a prior value, the result is `Ok` exactly when the requested
compression flag, segment size, and version all equal the persisted
ones, any mismatch is an `Unsupported` error, and the disk is left
untouched; when no prior record exists, the current parameters are
written to the `conf` file and the call succeeds; a read I/O error is
propagated unchanged. -/
theorem c3_verify_config :
    (∀ (cfg : ConfigBuilder) (d : Disk) (old : StorageParameters) (oracle : FaultOracle),
      readConfig d.conf = .ok (some old) →
        (((verifyConfig cfg d none oracle).1 = .ok ()) ↔
          (cfg.useCompression = old.use_compression ∧
            cfg.segmentSize = old.segment_size ∧ cfg.version = old.version)) ∧
        ((verifyConfig cfg d none oracle).1 = .ok () ∨
          ∃ m, (verifyConfig cfg d none oracle).1 = .error (.Unsupported m)) ∧
        (verifyConfig cfg d none oracle).2 = d) ∧
    (∀ (cfg : ConfigBuilder) (d : Disk),
      readConfig d.conf = .ok none →
        (verifyConfig cfg d none cleanOracle).1 = .ok () ∧
        (verifyConfig cfg d none cleanOracle).2.conf =
          some (confPayload cfg ++ (d.confTmp.getD []).drop (confPayload cfg).length) ∧
        (d.confTmp = none →
          (verifyConfig cfg d none cleanOracle).2.conf = some (confPayload cfg))) ∧
    (∀ (cfg : ConfigBuilder) (d : Disk) (e : SledError) (oracle : FaultOracle),
      verifyConfig cfg d (some e) oracle = (.error e, d)) := by
  refine ⟨?_, ?_, fun cfg d e oracle => rfl⟩
  · intro cfg d old oracle h
    simp only [verifyConfig, h]
    refine ⟨?_, ?_, ?_⟩
    · split_ifs <;> simp_all
    · split_ifs
      all_goals first
        | exact Or.inl rfl
        | exact Or.inr ⟨_, rfl⟩
    · split_ifs <;> rfl
  · intro cfg d h
    simp only [verifyConfig, h, writeConfig_clean]
    refine ⟨by trivial, by trivial, fun ht => ?_⟩
    rw [ht]
    simp

theorem c3_verify_config_witness :
    (verifyConfig sampleConfig ⟨none, none⟩ none cleanOracle).1 = .ok () :=
  (c3_verify_config.2.1 sampleConfig ⟨none, none⟩ rfl).1

/- ## C5: write_config protocol -/

set_option maxRecDepth 10000 in
/-- C5 fails as stated: `write_config` opens `conf.tmp` with
`write(true).create(true)` and no truncation, so with a stale 60-byte
`conf.tmp` left on disk the call returns `Ok` yet the resulting `conf`
file is the payload plus leftover staging bytes — not exactly the
serialized text and checksum and nothing else. -/
theorem c5_write_config_counterexample :
    (writeConfig sampleConfig ⟨none, some (List.replicate 60 0)⟩ cleanOracle).res = .ok () ∧
    (writeConfig sampleConfig ⟨none, some (List.replicate 60 0)⟩ cleanOracle).disk.conf ≠
      some (confPayload sampleConfig) := by
  constructor
  · decide
  · decide

/-- C5 (amended): after `write_config` returns `Ok` the `conf` file
holds exactly the serialized text followed by the 4 raw checksum bytes,
followed by any residue of a pre-existing longer `conf.tmp` (so exactly
the payload and nothing else whenever no staging file pre-existed),
reached by opening and writing `conf.tmp`, fsyncing it, renaming it
over `conf`, and fsyncing the directory, in that order; a failing step
aborts the sequence, surfaces the underlying I/O error, executes no
later operation, and any failure up to and including the rename leaves
`conf` untouched. -/
theorem c5_write_config_protocol (cfg : ConfigBuilder) (d : Disk) :
    ((writeConfig cfg d cleanOracle).res = .ok () ∧
      (writeConfig cfg d cleanOracle).trace =
        [.openTmp, .writeBytes, .writeCrc, .fsyncTmp, .renameTmpToConf, .fsyncDir] ∧
      (writeConfig cfg d cleanOracle).disk.conf =
        some (confPayload cfg ++ (d.confTmp.getD []).drop (confPayload cfg).length) ∧
      (d.confTmp = none →
        (writeConfig cfg d cleanOracle).disk.conf = some (confPayload cfg)) ∧
      (writeConfig cfg d cleanOracle).disk.confTmp = none) ∧
    (∀ (oracle : FaultOracle) (i : Nat) (e : SledError), i ≤ 5 →
      (∀ j, j < i → oracle j = none) → oracle i = some e →
      (writeConfig cfg d oracle).res = .error e ∧
      (writeConfig cfg d oracle).trace =
        [FsOp.openTmp, .writeBytes, .writeCrc, .fsyncTmp, .renameTmpToConf,
          .fsyncDir].take i ∧
      (i ≤ 4 → (writeConfig cfg d oracle).disk.conf = d.conf)) := by
  constructor
  · rw [writeConfig_clean]
    exact ⟨rfl, rfl, rfl, fun ht => by rw [ht]; simp, rfl⟩
  · intro oracle i e hi hj he
    interval_cases i
    · rw [writeConfig]
      simp only [he]
      exact ⟨by trivial, by trivial, fun _ => by trivial⟩
    · have h0 := hj 0 (by omega)
      rw [writeConfig]
      simp only [h0, he]
      exact ⟨by trivial, by trivial, fun _ => by trivial⟩
    · have h0 := hj 0 (by omega)
      have h1 := hj 1 (by omega)
      rw [writeConfig]
      simp only [h0, h1, he]
      exact ⟨by trivial, by trivial, fun _ => by trivial⟩
    · have h0 := hj 0 (by omega)
      have h1 := hj 1 (by omega)
      have h2 := hj 2 (by omega)
      rw [writeConfig]
      simp only [h0, h1, h2, he]
      exact ⟨by trivial, by trivial, fun _ => by trivial⟩
    · have h0 := hj 0 (by omega)
      have h1 := hj 1 (by omega)
      have h2 := hj 2 (by omega)
      have h3 := hj 3 (by omega)
      rw [writeConfig]
      simp only [h0, h1, h2, h3, he]
      exact ⟨by trivial, by trivial, fun _ => by trivial⟩
    · have h0 := hj 0 (by omega)
      have h1 := hj 1 (by omega)
      have h2 := hj 2 (by omega)
      have h3 := hj 3 (by omega)
      have h4 := hj 4 (by omega)
      rw [writeConfig]
      simp only [h0, h1, h2, h3, h4, he]
      exact ⟨by trivial, by trivial, fun hcon => absurd hcon (by omega)⟩

theorem c5_write_config_protocol_witness :
    (writeConfig sampleConfig ⟨none, none⟩ cleanOracle).res = .ok () ∧
    (writeConfig sampleConfig ⟨none, none⟩
        (fun j => if j = 2 then some (.Io ("injected write failure")) else none)).res =
      .error (.Io ("injected write failure")) :=
  ⟨(c5_write_config_protocol sampleConfig ⟨none, none⟩).1.1,
    ((c5_write_config_protocol sampleConfig ⟨none, none⟩).2
      (fun j => if j = 2 then some (.Io ("injected write failure")) else none) 2
      (.Io ("injected write failure")) (by omega)
      (fun j hj => by interval_cases j <;> rfl) rfl).1⟩

/- ## C10: line-level semantics of deserialize -/

theorem parsePairs_append (l₁ l₂ : List (List Char)) :
    parsePairs (l₁ ++ l₂) =
      match parsePairs l₁ with
      | .error e => .error e
      | .ok p₁ =>
        match parsePairs l₂ with
        | .error e => .error e
        | .ok p₂ => .ok (p₁ ++ p₂) := by
  induction l₁ with
  | nil =>
    rw [List.nil_append]
    cases parsePairs l₂ <;> rfl
  | cons s t ih =>
    rw [List.cons_append]
    cases hkv : kvOf s with
    | none => simp only [parsePairs, hkv]
    | some kv =>
      obtain ⟨k, v⟩ := kv
      simp only [parsePairs, hkv, ih]
      cases parsePairs t with
      | error e => rfl
      | ok p₁ =>
        cases parsePairs l₂ with
        | error e => rfl
        | ok p₂ => rfl

theorem parsePairs_shape (ls : List (List Char)) (h : ∀ s ∈ ls, (kvOf s).isSome) :
    parsePairs ls = .ok (ls.filterMap kvOf) := by
  induction ls with
  | nil => rfl
  | cons s t ih =>
    obtain ⟨⟨k, v⟩, hkv⟩ := Option.isSome_iff_exists.mp (h s (List.mem_cons_self s t))
    rw [parsePairs, hkv, ih (fun x hx => h x (List.mem_cons_of_mem s hx))]
    rw [List.filterMap_cons_some hkv]

theorem lookupKey_eq_none_iff (k : List Char) (p : List (List Char × List Char)) :
    lookupKey k p = none ↔ k ∉ p.map Prod.fst := by
  induction p with
  | nil => simp [lookupKey]
  | cons ab rest ih =>
    obtain ⟨a, b⟩ := ab
    by_cases ha : a = k
    · subst ha
      rw [lookupKey, if_pos rfl]
      simp
    · rw [lookupKey, if_neg ha]
      simp only [List.map_cons, List.mem_cons, ih]
      constructor
      · rintro hn (h1 | h2)
        · exact ha h1.symm
        · exact hn h2
      · intro hn h2
        exact hn (Or.inr h2)

theorem lookupKey_mem (k v : List Char) (p : List (List Char × List Char))
    (h : lookupKey k p = some v) : (k, v) ∈ p := by
  induction p with
  | nil => simp [lookupKey] at h
  | cons ab rest ih =>
    obtain ⟨a, b⟩ := ab
    by_cases ha : a = k
    · subst ha
      rw [lookupKey, if_pos rfl] at h
      rw [← Option.some_inj.mp h]
      exact List.mem_cons_self _ _
    · rw [lookupKey, if_neg ha] at h
      exact List.mem_cons_of_mem _ (ih h)

theorem mem_lookupKey (k v : List Char) (p : List (List Char × List Char))
    (nd : (p.map Prod.fst).Nodup) (h : (k, v) ∈ p) : lookupKey k p = some v := by
  induction p with
  | nil => simp at h
  | cons ab rest ih =>
    obtain ⟨a, b⟩ := ab
    rw [List.map_cons, List.nodup_cons] at nd
    rcases List.mem_cons.mp h with h1 | h2
    · cases h1
      exact lookupKey_cons_eq _ _ _
    · have ha : a ≠ k := by
        intro hak
        subst hak
        exact nd.1 (List.mem_map.mpr ⟨(a, v), h2, rfl⟩)
      rw [lookupKey_cons_ne _ _ _ _ ha]
      exact ih nd.2 h2

theorem lookupKey_perm (p₁ p₂ : List (List Char × List Char))
    (hperm : p₁.Perm p₂) (nd : (p₁.map Prod.fst).Nodup) (k : List Char) :
    lookupKey k p₁ = lookupKey k p₂ := by
  have nd₂ : (p₂.map Prod.fst).Nodup := (hperm.map Prod.fst).nodup_iff.mp nd
  cases hc : lookupKey k p₁ with
  | some v =>
    exact (mem_lookupKey k v p₂ nd₂ (hperm.mem_iff.mp (lookupKey_mem k v p₁ hc))).symm
  | none =>
    have : k ∉ p₂.map Prod.fst := by
      intro hm
      exact (lookupKey_eq_none_iff k p₁).mp hc ((hperm.map Prod.fst).mem_iff.mpr hm)
    exact ((lookupKey_eq_none_iff k p₂).mpr this).symm

theorem lookupKey_middle_ne (q k : List Char) (v : List Char)
    (xs ys : List (List Char × List Char)) (h : q ≠ k) :
    lookupKey q (xs ++ (k, v) :: ys) = lookupKey q (xs ++ ys) := by
  induction xs with
  | nil =>
    rw [List.nil_append, List.nil_append, lookupKey,
      if_neg (fun hk => h hk.symm)]
  | cons ab rest ih =>
    obtain ⟨a, b⟩ := ab
    rw [List.cons_append, List.cons_append, lookupKey, lookupKey, ih]

theorem lookupKey_dup (q k : List Char) (v₁ v₂ : List Char)
    (xs ys zs : List (List Char × List Char)) :
    lookupKey q (xs ++ (k, v₂) :: (ys ++ (k, v₁) :: zs)) =
      lookupKey q (xs ++ (k, v₂) :: (ys ++ zs)) := by
  induction xs with
  | nil =>
    rw [List.nil_append, List.nil_append, lookupKey, lookupKey]
    by_cases hk : k = q
    · rw [if_pos hk, if_pos hk]
    · rw [if_neg hk, if_neg hk]
      exact lookupKey_middle_ne q k v₁ ys zs (fun hq => hk hq.symm)
  | cons ab rest ih =>
    obtain ⟨a, b⟩ := ab
    rw [List.cons_append, List.cons_append, lookupKey, lookupKey, ih]

theorem fromPairs_congr3 (p₁ p₂ : List (List Char × List Char))
    (h1 : lookupKey segKey p₁.reverse = lookupKey segKey p₂.reverse)
    (h2 : lookupKey ucKey p₁.reverse = lookupKey ucKey p₂.reverse)
    (h3 : lookupKey verKey p₁.reverse = lookupKey verKey p₂.reverse) :
    fromPairs p₁ = fromPairs p₂ := by
  simp only [fromPairs]
  rw [h1, h2, h3]

theorem lookupKey_reverse_middle (q k : List Char) (v : List Char)
    (pa pb : List (List Char × List Char)) (h : q ≠ k) :
    lookupKey q ((pa ++ (k, v) :: pb).reverse) = lookupKey q ((pa ++ pb).reverse) := by
  rw [List.reverse_append, List.reverse_cons, List.reverse_append,
    List.append_assoc, List.singleton_append]
  exact lookupKey_middle_ne q k v pb.reverse pa.reverse h

theorem lookupKey_reverse_dup (q k : List Char) (v₁ v₂ : List Char)
    (pa pm pp : List (List Char × List Char)) :
    lookupKey q ((pa ++ (k, v₁) :: (pm ++ (k, v₂) :: pp)).reverse) =
      lookupKey q ((pa ++ (pm ++ (k, v₂) :: pp)).reverse) := by
  simp only [List.reverse_append, List.reverse_cons, List.append_assoc,
    List.singleton_append]
  exact lookupKey_dup q k v₁ v₂ pp.reverse pm.reverse pa.reverse

/-- C10: `deserialize` is insensitive to the order of distinct
well-shaped `key: value` lines; a line whose key is not one of
`segment_size`, `use_compression`, `version` but still has the
`key: value` shape is silently ignored; when the same key occurs on
several lines the last occurrence wins (an earlier occurrence is
irrelevant); and deserializing the empty byte sequence is a corruption
error, the required `segment_size` key being absent. -/
theorem c10_deserialize_line_semantics :
    (∀ ls₁ ls₂ : List (List Char), ls₁.Perm ls₂ →
      (∀ s ∈ ls₁, lineOkB s = true) →
      (∀ s ∈ ls₁, (kvOf s).isSome) →
      ((ls₁.filterMap kvOf).map Prod.fst).Nodup →
      StorageParameters.deserialize (joinLines ls₁) =
        StorageParameters.deserialize (joinLines ls₂)) ∧
    (∀ (pre post : List (List Char)) (line k v : List Char),
      (∀ s ∈ pre ++ line :: post, lineOkB s = true) →
      kvOf line = some (k, v) → k ≠ segKey → k ≠ ucKey → k ≠ verKey →
      StorageParameters.deserialize (joinLines (pre ++ line :: post)) =
        StorageParameters.deserialize (joinLines (pre ++ post))) ∧
    (∀ (pre mid post : List (List Char)) (l₁ l₂ k v₁ v₂ : List Char),
      (∀ s ∈ pre ++ l₁ :: (mid ++ l₂ :: post), lineOkB s = true) →
      kvOf l₁ = some (k, v₁) → kvOf l₂ = some (k, v₂) →
      StorageParameters.deserialize (joinLines (pre ++ l₁ :: (mid ++ l₂ :: post))) =
        StorageParameters.deserialize (joinLines (pre ++ (mid ++ l₂ :: post)))) ∧
    (StorageParameters.deserialize [] = .error .Corruption) := by
  refine ⟨?_, ?_, ?_, by decide⟩
  · intro ls₁ ls₂ hperm hok hshape hnd
    have hok₂ : ∀ s ∈ ls₂, lineOkB s = true := fun s hs => hok s (hperm.mem_iff.mpr hs)
    have hshape₂ : ∀ s ∈ ls₂, (kvOf s).isSome := fun s hs => hshape s (hperm.mem_iff.mpr hs)
    rw [deserialize_joinLines _ hok, deserialize_joinLines _ hok₂]
    simp only [deserializeLines, parsePairs_shape _ hshape, parsePairs_shape _ hshape₂]
    have hq : (ls₁.filterMap kvOf).Perm (ls₂.filterMap kvOf) := hperm.filterMap kvOf
    have hqr : (ls₁.filterMap kvOf).reverse.Perm (ls₂.filterMap kvOf).reverse :=
      ((ls₁.filterMap kvOf).reverse_perm.trans hq).trans
        (ls₂.filterMap kvOf).reverse_perm.symm
    have hndr : ((ls₁.filterMap kvOf).reverse.map Prod.fst).Nodup := by
      rw [List.map_reverse]
      exact List.nodup_reverse.mpr hnd
    exact fromPairs_congr3 _ _ (lookupKey_perm _ _ hqr hndr segKey)
      (lookupKey_perm _ _ hqr hndr ucKey) (lookupKey_perm _ _ hqr hndr verKey)
  · intro pre post line k v hok hkv hk1 hk2 hk3
    have hokr : ∀ s ∈ pre ++ post, lineOkB s = true := by
      intro s hs
      apply hok
      rcases List.mem_append.mp hs with h | h
      · exact List.mem_append.mpr (Or.inl h)
      · exact List.mem_append.mpr (Or.inr (List.mem_cons_of_mem _ h))
    rw [deserialize_joinLines _ hok, deserialize_joinLines _ hokr]
    simp only [deserializeLines]
    rw [parsePairs_append pre (line :: post), parsePairs_append pre post]
    cases hpre : parsePairs pre with
    | error e => rfl
    | ok pa =>
      rw [parsePairs, hkv]
      cases hpost : parsePairs post with
      | error e => rfl
      | ok pb =>
        show fromPairs (pa ++ (k, v) :: pb) = fromPairs (pa ++ pb)
        exact fromPairs_congr3 _ _
          (lookupKey_reverse_middle segKey k v pa pb (fun h => hk1 h.symm))
          (lookupKey_reverse_middle ucKey k v pa pb (fun h => hk2 h.symm))
          (lookupKey_reverse_middle verKey k v pa pb (fun h => hk3 h.symm))
  · intro pre mid post l₁ l₂ k v₁ v₂ hok hkv₁ hkv₂
    have hokr : ∀ s ∈ pre ++ (mid ++ l₂ :: post), lineOkB s = true := by
      intro s hs
      apply hok
      rcases List.mem_append.mp hs with h | h
      · exact List.mem_append.mpr (Or.inl h)
      · exact List.mem_append.mpr (Or.inr (List.mem_cons_of_mem _ h))
    rw [deserialize_joinLines _ hok, deserialize_joinLines _ hokr]
    simp only [deserializeLines]
    rw [parsePairs_append pre (l₁ :: (mid ++ l₂ :: post)),
      parsePairs_append pre (mid ++ l₂ :: post)]
    cases hpre : parsePairs pre with
    | error e => rfl
    | ok pa =>
      rw [parsePairs, hkv₁, parsePairs_append mid (l₂ :: post)]
      cases hmid : parsePairs mid with
      | error e => rfl
      | ok pm =>
        rw [parsePairs, hkv₂]
        cases hpost : parsePairs post with
        | error e => rfl
        | ok pp =>
          show fromPairs (pa ++ (k, v₁) :: (pm ++ (k, v₂) :: pp)) =
            fromPairs (pa ++ (pm ++ (k, v₂) :: pp))
          exact fromPairs_congr3 _ _
            (lookupKey_reverse_dup segKey k v₁ v₂ pa pm pp)
            (lookupKey_reverse_dup ucKey k v₁ v₂ pa pm pp)
            (lookupKey_reverse_dup verKey k v₁ v₂ pa pm pp)

theorem c10_deserialize_line_semantics_witness :
    StorageParameters.deserialize (joinLines
      [("use_compression: false").toList, ("version: 1.2").toList,
        ("segment_size: 256").toList]) =
      StorageParameters.deserialize (joinLines
        [("segment_size: 256").toList, ("use_compression: false").toList,
          ("version: 1.2").toList]) :=
  c10_deserialize_line_semantics.1
    [("use_compression: false").toList, ("version: 1.2").toList,
      ("segment_size: 256").toList]
    [("segment_size: 256").toList, ("use_compression: false").toList,
      ("version: 1.2").toList]
    (by decide) (by decide) (by decide) (by decide)
